import Mathlib

/-!
A shallow embedding of `src/recursiveFeatureAddition.py` (classes `RFA` and
`RFACV`), together with theorems checking the repository's specification
against it.

Modelling conventions:

* Importance signals (`coef_` / `feature_importances_`) are IEEE-style values
  modelled by `Val`: a finite rational, `inf`, `ninf` (negative infinity) or
  `nan`.  Floating-point rounding plays no role in the claims treated here;
  only the ordering of values (including the non-finite ones) matters.
* `np.argsort` is modelled as the deterministic argsort that orders by
  (value, original index) lexicographically, with NaN ordered last, which is
  numpy's documented placement of NaN.  This matches `np.argsort` with the
  default quicksort kind exactly for arrays no longer than numpy's 16-element
  insertion-sort cutoff (the regime of every concrete run below), and at
  every size for the properties the theorems below rely on - which positions
  are returned (a permutation) and the placement of NaN after every non-NaN
  value.  The order AMONG tied values of a longer array is an implementation
  detail of numpy's unstable introsort and is not modelled; no theorem below
  depends on it.
* The fitted estimator is an external collaborator; a run only observes the
  importance signal it exposes after being fitted on a column subset, so an
  estimator is modelled as a function from the fitted column-index list to
  `Option Coefs` (`none` = the model exposes neither `coef_` nor
  `feature_importances_`, the `RuntimeError` branch at lines 201-204).
* The score hook (`step_score`) is modelled as a function from the added
  feature list to a rational score (the scorer collaborator's contract is a
  plain numeric result).
* The `while` loop of `RFA._fit` is given explicit fuel `n_features + 1`;
  every iteration that moves at least one feature strictly shrinks the
  support mask, so the fuel can only run out for degenerate estimators whose
  signal is shorter than the fitted column list (where the Python loops
  forever); such runs answer `.error .noTermination` and no theorem below
  concerns them.
* The state record carries a ghost field `batches` recording the list of
  features moved in each iteration, used only by specifications, never by the
  translated control flow.
-/

/-- An importance value: finite rational, `+inf`, `-inf` or NaN. -/
inductive Val where
  | fin : ℚ → Val
  | inf : Val
  | ninf : Val
  | nan : Val
deriving DecidableEq

/-- Constructor level used for cross-kind comparisons: `ninf` below every
finite value, `inf` above, NaN ordered after everything (numpy sorts NaN to
the end of an ascending sort). -/
def valLevel : Val → Nat
  | .ninf => 0
  | .fin _ => 1
  | .inf => 2
  | .nan => 3

/-- Strict ascending comparison of importance values as `np.argsort` orders
them: finite values by magnitude, `ninf` first, `inf` after all finite
values, NaN last. -/
def valLt (a b : Val) : Bool :=
  match a, b with
  | .fin x, .fin y => decide (x < y)
  | a, b => decide (valLevel a < valLevel b)

/-- `sklearn.utils.safe_sqr`: elementwise square. -/
def safeSqr : Val → Val
  | .fin q => .fin (q * q)
  | .inf => .inf
  | .ninf => .inf
  | .nan => .nan

/-- Unary negation, as in `np.argsort(-safe_sqr(coefs))`. -/
def Val.neg : Val → Val
  | .fin q => .fin (-q)
  | .inf => .ninf
  | .ninf => .inf
  | .nan => .nan

/-- IEEE-style addition on importance values, for `safe_sqr(coefs).sum(axis=0)`. -/
def Val.add : Val → Val → Val
  | .nan, _ => .nan
  | _, .nan => .nan
  | .inf, .ninf => .nan
  | .ninf, .inf => .nan
  | .inf, _ => .inf
  | _, .inf => .inf
  | .ninf, _ => .ninf
  | _, .ninf => .ninf
  | .fin a, .fin b => .fin (a + b)

/-- The raw importance signal exposed by a fitted estimator: a coefficient
vector (`coefs.ndim == 1`) or matrix (`coefs.ndim > 1`, one row per output). -/
inductive Coefs where
  | one : List Val → Coefs
  | many : List (List Val) → Coefs
deriving DecidableEq

/-- `m.sum(axis=0)` for a rectangular matrix given as rows. -/
def sumAxis0 : List (List Val) → List Val
  | [] => []
  | r :: rs => rs.foldl (fun acc row => List.zipWith Val.add acc row) r

/-- Per-feature importance: `safe_sqr(coefs)` for a vector,
`safe_sqr(coefs).sum(axis=0)` for a matrix (lines 208-219). -/
def importanceOf : Coefs → List Val
  | .one v => v.map safeSqr
  | .many m => sumAxis0 (m.map (fun row => row.map safeSqr))

/-- Ascending order on positions of `vs`, by (value, position)
lexicographically: the order realised by `np.argsort` with ties kept in
original order. -/
def rankRel (vs : List Val) (i j : Nat) : Prop :=
  valLt (vs.getD i Val.nan) (vs.getD j Val.nan) = true ∨
    (vs.getD i Val.nan = vs.getD j Val.nan ∧ i ≤ j)

instance rankRelDecidable (vs : List Val) : DecidableRel (rankRel vs) :=
  fun _ _ => inferInstanceAs (Decidable (_ ∨ _ ∧ _))

/-- `np.argsort(vs)`: the positions of `vs` in ascending value order, NaN
positions last, ties in ascending position order.  Exact for `vs` no longer
than numpy's insertion-sort cutoff of 16; above it numpy's default introsort
may order tied values differently (see the module comment), and the theorems
below use only tie-order-independent consequences at such sizes. -/
def argsortAsc (vs : List Val) : List Nat :=
  List.insertionSort (rankRel vs) (List.range vs.length)

/-- Lines 206-222 of the source: the addition-order ranks of the remaining
features, most important first.  `np.argsort` raises no `ValueError` on
numeric input containing NaN/inf (it orders NaN last), so the
`except ValueError: nan_to_num` branches at lines 211-213 and 217-219 are
unreachable and the signal is ranked unchanged. -/
def getRanks (c : Coefs) : List Nat :=
  argsortAsc ((importanceOf c).map Val.neg)

/-- Number of `True` entries of a boolean mask (`np.sum(mask)`). -/
def countTrue (l : List Bool) : Nat := l.count true

/-- `np.arange(len(mask))[mask]`: the indices at which the mask is `True`,
ascending. -/
def trueIndices (l : List Bool) : List Nat :=
  (List.range l.length).filter (fun i => l.getD i false)

/-- `mask[idxs] = False` by numpy fancy-index assignment. -/
def setFalses (s : List Bool) (idxs : List Nat) : List Bool :=
  idxs.foldl (fun t i => t.set i false) s

/-- `mask[idxs] = True` by numpy fancy-index assignment. -/
def setTrues (s : List Bool) (idxs : List Nat) : List Bool :=
  idxs.foldl (fun t i => t.set i true) s

/-- `ranking[np.logical_not(mask)] += 1` (lines 229 and 233). -/
def incrWhereFalse (mask : List Bool) (rk : List Nat) : List Nat :=
  List.zipWith (fun m r => if m then r else r + 1) mask rk

/-- Failure outcomes of a run.  `stepNonPositive` is the `ValueError` of line
164/443, `noCoefSignal` the `RuntimeError` of lines 201-204;
`noTermination` marks fuel exhaustion (see the module comment). -/
inductive RFAErr where
  | stepNonPositive : RFAErr
  | noCoefSignal : RFAErr
  | noTermination : RFAErr
deriving DecidableEq

/-- The mutable state of `RFA._fit` (lines 166-172), plus the ghost `batches`
trace of moved features. -/
structure RFAState where
  support : List Bool
  supportAdded : List Bool
  ranking : List Nat
  rankingAdded : List Nat
  scores : List ℚ
  batches : List (List Nat)
deriving DecidableEq

/-- One execution of the loop body of `RFA._fit` (lines 175-233). -/
def rfaStep (model : List Nat → Option Coefs) (hook : Option (List Nat → ℚ))
    (step target : Nat) (st : RFAState) : Except RFAErr RFAState :=
  let features := trueIndices st.support
  let featuresAdded := trueIndices st.supportAdded
  let scores' :=
    match hook with
    | some h =>
        if countTrue st.supportAdded > 0 then st.scores ++ [h featuresAdded]
        else st.scores
    | none => st.scores
  match model features with
  | none => .error .noCoefSignal
  | some coefs =>
      let ranks := getRanks coefs
      let threshold := min step (countTrue st.support - target)
      let moved := (ranks.take threshold).filterMap (fun r => features.get? r)
      let support' := setFalses st.support moved
      let supportAdded' := setTrues st.supportAdded moved
      .ok { support := support'
            supportAdded := supportAdded'
            ranking := incrWhereFalse support' st.ranking
            rankingAdded := incrWhereFalse supportAdded' st.rankingAdded
            scores := scores'
            batches := st.batches ++ [moved] }

/-- The `while np.sum(support_) > n_features_to_select` loop, with fuel. -/
def rfaLoop (model : List Nat → Option Coefs) (hook : Option (List Nat → ℚ))
    (step target : Nat) : Nat → RFAState → Except RFAErr RFAState
  | 0, _ => .error .noTermination
  | fuel + 1, st =>
      if countTrue st.support > target then
        match rfaStep model hook step target st with
        | .error e => .error e
        | .ok st' => rfaLoop model hook step target fuel st'
      else .ok st

/-- Lines 166-169: all features are candidates, none added, both rank vectors
all ones. -/
def initState (n : Nat) : RFAState :=
  { support := List.replicate n true
    supportAdded := List.replicate n false
    ranking := List.replicate n 1
    rankingAdded := List.replicate n 1
    scores := []
    batches := [] }

/-- The attributes `RFA._fit` exposes (lines 236-247), with the ghost batch
trace. -/
structure RFAResult where
  support : List Bool
  nFeatures : Nat
  ranking : List Nat
  scores : List ℚ
  batches : List (List Nat)
deriving DecidableEq

/-- Python `int()` truncation toward zero of a rational. -/
def qtrunc (q : ℚ) : Int := q.num.tdiv q.den

/-- Step resolution, lines 159-162 (and identically 438-441): a fraction in
(0, 1) becomes `int(max(1, step * n_features))`, anything else is truncated
to an integer. -/
def resolveStep (stepParam : ℚ) (n : Nat) : Int :=
  if 0 < stepParam ∧ stepParam < 1 then qtrunc (max 1 (stepParam * n))
  else qtrunc stepParam

/-- `RFA._fit(X, y, step_score)`, lines 145-249.  `n` is `X.shape[1]`; the
estimator prototype is `model`; the final clone-and-fit on the added columns
(lines 238-239) has no observable effect beyond the hook's last score. -/
def rfaFit (n : Nat) (model : List Nat → Option Coefs)
    (nFeaturesToSelect : Option Nat) (stepParam : ℚ)
    (hook : Option (List Nat → ℚ)) : Except RFAErr RFAResult :=
  let target := nFeaturesToSelect.getD (n / 2)
  let stepI := resolveStep stepParam n
  if stepI ≤ 0 then .error .stepNonPositive
  else
    match rfaLoop model hook stepI.toNat target (n + 1) (initState n) with
    | .error e => .error e
    | .ok st =>
        let featuresAdded := trueIndices st.supportAdded
        let scoresFinal :=
          match hook with
          | some h => st.scores ++ [h featuresAdded]
          | none => st.scores
        .ok { support := st.supportAdded
              nFeatures := countTrue st.supportAdded
              ranking := st.rankingAdded
              scores := scoresFinal
              batches := st.batches }

/-- One cross-validation fold: the estimator as fitted on the fold's training
rows, and the held-out score hook built from the fold's test rows (the
`_rfa_single_fit` closure, lines 34-42). -/
structure Fold where
  model : List Nat → Option Coefs
  hook : List Nat → ℚ

/-- `np.argmax` on a rational vector: index of the first occurrence of the
maximum. -/
def argmaxQ (l : List ℚ) : Nat :=
  (List.range l.length).foldl
    (fun best i => if l.getD best 0 < l.getD i 0 then i else best) 0

/-- `np.sum(rows, axis=0)` on the per-fold score trajectories (line 471). -/
def sumAxis0Q : List (List ℚ) → List ℚ
  | [] => []
  | r :: rs => rs.foldl (fun acc row => List.zipWith (· + ·) acc row) r

/-- The attributes `RFACV.fit` exposes (lines 486-495), plus the chosen
subset-size parameter (the local `n_features_to_select` of line 476). -/
structure RFACVResult where
  support : List Bool
  nFeatures : Nat
  ranking : List Nat
  gridScores : List ℚ
  nFeaturesToSelect : Nat
deriving DecidableEq

/-- The per-fold trajectories (lines 462-469): each fold runs `RFA._fit` on
its training view with `n_features_to_select = 1` and its held-out score
hook, keeping only `scores_`.  Fold tasks run in submission order and the
first failure aborts the whole fit. -/
def foldTrajectories (n : Nat) (stepParam : ℚ) (folds : List Fold) :
    Except RFAErr (List (List ℚ)) :=
  folds.mapM (fun fd =>
    (rfaFit n fd.model (some 1) stepParam (some fd.hook)).map
      (fun r => r.scores))

/-- `RFACV.fit(X, y)`, lines 416-496.  `modelFull` is the estimator as fitted
on columns of the full dataset; `folds.length` stands for
`cv.get_n_splits(X, y)` (the splitter contract equates the two). -/
def rfacvFit (n : Nat) (modelFull : List Nat → Option Coefs) (stepParam : ℚ)
    (folds : List Fold) : Except RFAErr RFACVResult :=
  let stepI := resolveStep stepParam n
  if stepI ≤ 0 then .error .stepNonPositive
  else
    match foldTrajectories n stepParam folds with
    | .error e => .error e
    | .ok trajs =>
        let scores := sumAxis0Q trajs
        let nSel := (max ((n : Int) - (argmaxQ scores : Int) * stepI) 1).toNat
        match rfaFit n modelFull (some nSel) stepParam none with
        | .error e => .error e
        | .ok r =>
            .ok { support := r.support
                  nFeatures := r.nFeatures
                  ranking := r.ranking
                  gridScores :=
                    scores.reverse.map (fun s => s / (folds.length : ℚ))
                  nFeaturesToSelect := nSel }

/-- Modelled from the spec: "Any non-finite value (NaN/inf) in the signal is
replaced with 0 before ranking" — the zero-substitution the spec asserts,
stated as a definition to compare against the code's actual ranking. -/
def zeroSubst : Val → Val
  | .fin q => .fin q
  | .inf => .fin 0
  | .ninf => .fin 0
  | .nan => .fin 0

/-- `zeroSubst` applied throughout a signal. -/
def zeroSubstCoefs : Coefs → Coefs
  | .one v => .one (v.map zeroSubst)
  | .many m => .many (m.map (fun row => row.map zeroSubst))

/-- The first-occurrence argmax, written from the spec's words "argmax of the
aggregate (first occurrence on ties)". -/
def IsFirstMax (l : List ℚ) (i : Nat) : Prop :=
  i < l.length ∧ (∀ j, j < l.length → l.getD j 0 ≤ l.getD i 0) ∧
    ∀ j, j < i → l.getD j 0 < l.getD i 0

/-- A deterministic estimator whose signal on a fitted column list `fs` is the
coefficient `i + 1` for column `i`: feature importance grows with the column
index.  Used for concrete runs. -/
def linModel (fs : List Nat) : Option Coefs :=
  some (.one (fs.map (fun i => .fin ((i : ℚ) + 1))))

/-- An estimator exposing neither `coef_` nor `feature_importances_`. -/
def noSignalModel : List Nat → Option Coefs := fun _ => none

/-- A score hook returning the size of the scored feature subset. -/
def sizeHook (fs : List Nat) : ℚ := (fs.length : ℚ)

/-! ### Order facts about importance values and the argsort -/

theorem valLt_trans {a b c : Val} (h1 : valLt a b = true) (h2 : valLt b c = true) :
    valLt a c = true := by
  cases a <;> cases b <;> cases c <;>
      simp only [valLt, valLevel, decide_eq_true_eq] at * <;>
    first
      | omega
      | exact lt_trans h1 h2

theorem valLt_trichotomy (a b : Val) :
    valLt a b = true ∨ a = b ∨ valLt b a = true := by
  rcases a with x | _ | _ | _ <;> rcases b with y | _ | _ | _ <;>
      simp [valLt, valLevel]
  exact lt_trichotomy x y

instance rankRelTrans (vs : List Val) : IsTrans Nat (rankRel vs) := by
  constructor
  intro i j k hij hjk
  rcases hij with h1 | ⟨e1, le1⟩ <;> rcases hjk with h2 | ⟨e2, le2⟩
  · exact Or.inl (valLt_trans h1 h2)
  · exact Or.inl (e2 ▸ h1)
  · exact Or.inl (e1 ▸ h2)
  · exact Or.inr ⟨e1.trans e2, le_trans le1 le2⟩

instance rankRelTotal (vs : List Val) : IsTotal Nat (rankRel vs) := by
  constructor
  intro i j
  rcases valLt_trichotomy (vs.getD i Val.nan) (vs.getD j Val.nan) with h | h | h
  · exact Or.inl (Or.inl h)
  · rcases Nat.le_total i j with hle | hle
    · exact Or.inl (Or.inr ⟨h, hle⟩)
    · exact Or.inr (Or.inr ⟨h.symm, hle⟩)
  · exact Or.inr (Or.inl h)

theorem argsortAsc_perm (vs : List Val) :
    (argsortAsc vs).Perm (List.range vs.length) :=
  List.perm_insertionSort _ _

theorem mem_argsortAsc {vs : List Val} {i : Nat} :
    i ∈ argsortAsc vs ↔ i < vs.length := by
  rw [(argsortAsc_perm vs).mem_iff, List.mem_range]

theorem argsortAsc_sorted (vs : List Val) :
    (argsortAsc vs).Sorted (rankRel vs) :=
  List.sorted_insertionSort _ _

theorem argsortAsc_indexOf_lt {vs : List Val} {i j : Nat} (hi : i < vs.length)
    (hj : j < vs.length) (hne : i ≠ j) (hrel : ¬ rankRel vs j i) :
    (argsortAsc vs).indexOf i < (argsortAsc vs).indexOf j := by
  have hmi : i ∈ argsortAsc vs := mem_argsortAsc.mpr hi
  have hmj : j ∈ argsortAsc vs := mem_argsortAsc.mpr hj
  have hpi := List.indexOf_lt_length.mpr hmi
  have hpj := List.indexOf_lt_length.mpr hmj
  rcases lt_trichotomy ((argsortAsc vs).indexOf i) ((argsortAsc vs).indexOf j)
    with h | h | h
  · exact h
  · exact absurd ((List.indexOf_inj hmi hmj).mp h) hne
  · have hpair :=
      List.pairwise_iff_getElem.mp (argsortAsc_sorted vs) _ _ hpj hpi h
    rw [List.getElem_indexOf hpj, List.getElem_indexOf hpi] at hpair
    exact absurd hpair hrel

/-! ### Mask bookkeeping lemmas -/

theorem countTrue_nil : countTrue [] = 0 := rfl

theorem countTrue_cons (b : Bool) (l : List Bool) :
    countTrue (b :: l) = countTrue l + if b then 1 else 0 := by
  cases b <;> simp [countTrue, List.count_cons]

theorem countTrue_map_not_add (l : List Bool) :
    countTrue (l.map not) + countTrue l = l.length := by
  induction l with
  | nil => simp [countTrue]
  | cons b t ih =>
      cases b <;> simp [List.map, countTrue_cons] at * <;> omega

theorem getD_lt_length {l : List Bool} {f : Nat} (h : l.getD f false = true) :
    f < l.length := by
  by_contra hge
  rw [List.getD_eq_default _ _ (le_of_not_lt hge)] at h
  exact Bool.false_ne_true h

theorem getD_map_not {l : List Bool} {f : Nat} (h : f < l.length) :
    (l.map not).getD f false = !(l.getD f false) := by
  rw [List.getD_eq_getElem _ _ (by simpa using h), List.getD_eq_getElem _ _ h,
    List.getElem_map]

theorem getD_set_self {l : List Bool} {m : Nat} {b : Bool} (h : m < l.length) :
    (l.set m b).getD m false = b := by
  rw [List.getD_eq_getElem _ _ (by simpa using h), List.getElem_set, if_pos rfl]

theorem getD_set_ne {l : List Bool} {m f : Nat} {b : Bool} (h : m ≠ f) :
    (l.set m b).getD f false = l.getD f false := by
  by_cases hf : f < l.length
  · rw [List.getD_eq_getElem _ _ (by simpa using hf),
      List.getD_eq_getElem _ _ hf, List.getElem_set, if_neg h]
  · rw [List.getD_eq_default _ _ (by simpa using le_of_not_lt hf),
      List.getD_eq_default _ _ (le_of_not_lt hf)]

theorem length_setTrues (ms : List Nat) (l : List Bool) :
    (setTrues l ms).length = l.length := by
  induction ms generalizing l with
  | nil => rfl
  | cons m t ih =>
      rw [setTrues, List.foldl_cons]
      have h := ih (l.set m true)
      rw [setTrues] at h
      rw [h, List.length_set]

theorem length_setFalses (ms : List Nat) (l : List Bool) :
    (setFalses l ms).length = l.length := by
  induction ms generalizing l with
  | nil => rfl
  | cons m t ih =>
      rw [setFalses, List.foldl_cons]
      have h := ih (l.set m false)
      rw [setFalses] at h
      rw [h, List.length_set]

theorem getD_setTrues_not_mem {ms : List Nat} {l : List Bool} {f : Nat}
    (hf : f ∉ ms) : (setTrues l ms).getD f false = l.getD f false := by
  induction ms generalizing l with
  | nil => rfl
  | cons m t ih =>
      rw [setTrues, List.foldl_cons]
      have : (setTrues (l.set m true) t).getD f false = (l.set m true).getD f false :=
        ih (fun h => hf (List.mem_cons_of_mem _ h))
      rw [setTrues] at this
      rw [this, getD_set_ne (fun e => hf (by rw [← e]; exact List.mem_cons_self _ _))]

theorem getD_setTrues_mem {ms : List Nat} {l : List Bool} {f : Nat}
    (hf : f ∈ ms) (hl : f < l.length) : (setTrues l ms).getD f false = true := by
  induction ms generalizing l with
  | nil => exact absurd hf (List.not_mem_nil f)
  | cons m t ih =>
      rw [setTrues, List.foldl_cons]
      by_cases hft : f ∈ t
      · exact ih hft (by simpa using hl)
      · have hm : f = m := by
          rcases List.mem_cons.mp hf with h | h
          · exact h
          · exact absurd h hft
        have := @getD_setTrues_not_mem t (l.set m true) f hft
        rw [setTrues] at this
        rw [this, hm, getD_set_self (hm ▸ hl)]

theorem getD_setTrues_true {ms : List Nat} {l : List Bool} {f : Nat}
    (h : l.getD f false = true) : (setTrues l ms).getD f false = true := by
  by_cases hf : f ∈ ms
  · exact getD_setTrues_mem hf (getD_lt_length h)
  · rw [getD_setTrues_not_mem hf]; exact h

theorem countTrue_set_true (l : List Bool) (i : Nat) :
    countTrue l ≤ countTrue (l.set i true) := by
  induction l generalizing i with
  | nil => simp [List.set]
  | cons b t ih =>
      cases i with
      | zero => cases b <;> simp [List.set, countTrue_cons]
      | succ j =>
          simp only [List.set, countTrue_cons]
          exact Nat.add_le_add_right (ih j) _

theorem countTrue_le_setTrues (ms : List Nat) (l : List Bool) :
    countTrue l ≤ countTrue (setTrues l ms) := by
  induction ms generalizing l with
  | nil => exact le_refl _
  | cons m t ih =>
      rw [setTrues, List.foldl_cons]
      have h2 := ih (l.set m true)
      rw [setTrues] at h2
      exact le_trans (countTrue_set_true l m) h2

theorem setFalses_map_not (ms : List Nat) (l : List Bool) :
    setFalses (l.map not) ms = (setTrues l ms).map not := by
  induction ms generalizing l with
  | nil => rfl
  | cons m t ih =>
      rw [setFalses, setTrues, List.foldl_cons, List.foldl_cons]
      have : (l.map not).set m false = (l.set m true).map not := by
        rw [List.map_set]; rfl
      rw [this]
      have h2 := ih (l.set m true)
      rw [setFalses, setTrues] at h2
      exact h2

theorem length_incrWhereFalse (mask : List Bool) (rk : List Nat) :
    (incrWhereFalse mask rk).length = min mask.length rk.length :=
  List.length_zipWith _ _ _

theorem getD_incrWhereFalse {mask : List Bool} {rk : List Nat} {f : Nat}
    (hf : f < mask.length) (hlen : mask.length = rk.length) :
    (incrWhereFalse mask rk).getD f 0 =
      if mask.getD f false then rk.getD f 0 else rk.getD f 0 + 1 := by
  have hf2 : f < rk.length := hlen ▸ hf
  have hfz : f < (incrWhereFalse mask rk).length := by
    rw [length_incrWhereFalse]; omega
  rw [List.getD_eq_getElem _ _ hfz, List.getD_eq_getElem _ _ hf,
    List.getD_eq_getElem _ _ hf2]
  exact List.getElem_zipWith

theorem mem_trueIndices {l : List Bool} {f : Nat} :
    f ∈ trueIndices l ↔ f < l.length ∧ l.getD f false = true := by
  simp [trueIndices, List.mem_filter, List.mem_range]

theorem trueIndices_replicate_true (n : Nat) :
    trueIndices (List.replicate n true) = List.range n := by
  unfold trueIndices
  rw [List.length_replicate]
  apply List.filter_eq_self.mpr
  intro a ha
  rw [List.getD_eq_getElem _ _ (by simpa using List.mem_range.mp ha),
    List.getElem_replicate]

theorem getD_replicate {α : Type} {a d : α} {n f : Nat} (h : f < n) :
    (List.replicate n a).getD f d = a := by
  rw [List.getD_eq_getElem _ _ (by simpa using h), List.getElem_replicate]

theorem countTrue_replicate_true (n : Nat) :
    countTrue (List.replicate n true) = n := by
  simp [countTrue, List.count_replicate]

theorem countTrue_replicate_false (n : Nat) :
    countTrue (List.replicate n false) = 0 := by
  simp [countTrue, List.count_replicate]

/-! ### Characterisation of a successful loop iteration -/

theorem rfaStep_ok_elim {model : List Nat → Option Coefs}
    {hook : Option (List Nat → ℚ)} {step target : Nat} {st st' : RFAState}
    (h : rfaStep model hook step target st = .ok st') :
    ∃ coefs moved,
      model (trueIndices st.support) = some coefs ∧
      moved = ((getRanks coefs).take (min step (countTrue st.support - target))).filterMap
          (fun r => (trueIndices st.support).get? r) ∧
      st'.support = setFalses st.support moved ∧
      st'.supportAdded = setTrues st.supportAdded moved ∧
      st'.rankingAdded = incrWhereFalse (setTrues st.supportAdded moved) st.rankingAdded ∧
      st'.batches = st.batches ++ [moved] := by
  rcases hm : model (trueIndices st.support) with _ | coefs
  · simp only [rfaStep, hm] at h
    exact Except.noConfusion h
  · simp only [rfaStep, hm] at h
    refine ⟨coefs, _, rfl, rfl, ?_⟩
    injection h with h'
    rw [← h']
    exact ⟨rfl, rfl, rfl, rfl⟩

theorem mem_of_mem_filterMapGet {l : List Nat} {t : List Nat} {f : Nat}
    (h : f ∈ t.filterMap (fun r => l.get? r)) : f ∈ l := by
  rcases List.mem_filterMap.mp h with ⟨r, _, hr⟩
  rw [List.get?_eq_getElem?] at hr
  exact List.getElem?_mem hr

/-! ### The batch/ranking invariant of the addition loop -/

/-- Invariant tying the ghost batch trace to the exposed bookkeeping: masks
have length `n` and are complementary, a feature moved in the (0-based) `i`-th
batch carries rank `i + 1` in `ranking_added_`, and a feature moved in no
batch carries rank `batches.length + 1`. -/
def BatchInv (n : Nat) (st : RFAState) : Prop :=
  st.supportAdded.length = n ∧
  st.rankingAdded.length = n ∧
  st.support = st.supportAdded.map not ∧
  (∀ (i : Nat) (b : List Nat), st.batches[i]? = some b → ∀ f ∈ b,
      f < n ∧ st.supportAdded.getD f false = true ∧
      st.rankingAdded.getD f 0 = i + 1) ∧
  (∀ f, f < n → st.supportAdded.getD f false = false →
      st.rankingAdded.getD f 0 = st.batches.length + 1) ∧
  (∀ f, f < n → st.supportAdded.getD f false = true →
      ∃ (i : Nat) (b : List Nat), st.batches[i]? = some b ∧ f ∈ b)

theorem batchInv_init (n : Nat) : BatchInv n (initState n) := by
  refine ⟨List.length_replicate _ _, List.length_replicate _ _, ?_, ?_, ?_, ?_⟩
  · simp [initState, List.map_replicate]
  · intro i b hib
    simp [initState] at hib
  · intro f hf _
    simp only [initState]
    rw [getD_replicate hf]
    rfl
  · intro f hf habs
    rw [initState] at habs
    simp only at habs
    rw [getD_replicate hf] at habs
    exact absurd habs (by simp)

theorem rfaStep_batchInv {model : List Nat → Option Coefs}
    {hook : Option (List Nat → ℚ)} {step target : Nat} {st st' : RFAState}
    {n : Nat} (hInv : BatchInv n st)
    (h : rfaStep model hook step target st = .ok st') : BatchInv n st' := by
  obtain ⟨hlenA, hlenR, hcomp, hbatch, hnever, hsome⟩ := hInv
  obtain ⟨coefs, moved, _, hmv, hsup, hadd, hrk, hbt⟩ := rfaStep_ok_elim h
  have hsuplen : st.support.length = n := by
    rw [hcomp, List.length_map, hlenA]
  have hmoved_sub : ∀ f ∈ moved, f < n ∧ st.support.getD f false = true := by
    intro f hf
    rw [hmv] at hf
    have := mem_trueIndices.mp (mem_of_mem_filterMapGet hf)
    exact ⟨hsuplen ▸ this.1, this.2⟩
  have hmoved_addFalse : ∀ f ∈ moved, st.supportAdded.getD f false = false := by
    intro f hf
    obtain ⟨hfn, hft⟩ := hmoved_sub f hf
    rw [hcomp, getD_map_not (hlenA ▸ hfn)] at hft
    simpa using hft
  have hmaskLen : (setTrues st.supportAdded moved).length = n := by
    rw [length_setTrues, hlenA]
  have hmrLen : (setTrues st.supportAdded moved).length = st.rankingAdded.length := by
    rw [hmaskLen, hlenR]
  have hlenA' : st'.supportAdded.length = n := by
    rw [hadd, length_setTrues, hlenA]
  have hlenR' : st'.rankingAdded.length = n := by
    rw [hrk, length_incrWhereFalse, length_setTrues, hlenA, hlenR, min_self]
  refine ⟨hlenA', hlenR', ?_, ?_, ?_, ?_⟩
  · rw [hsup, hadd, hcomp, setFalses_map_not]
  · intro i b hib f hf
    rw [hbt, List.getElem?_append] at hib
    split at hib
    · rename_i hilt
      obtain ⟨hfn, hft, hfr⟩ := hbatch i b hib f hf
      have haddf : (setTrues st.supportAdded moved).getD f false = true :=
        getD_setTrues_true hft
      refine ⟨hfn, by rw [hadd]; exact haddf, ?_⟩
      rw [hrk, getD_incrWhereFalse (hmaskLen ▸ hfn) hmrLen, haddf, if_pos rfl]
      exact hfr
    · rename_i hile
      have hi : i = st.batches.length := by
        by_contra hne
        have hz : ([moved] : List (List Nat))[i - st.batches.length]? = none :=
          List.getElem?_eq_none (by simp; omega)
        rw [hz] at hib
        exact Option.noConfusion hib
      have hb : b = moved := by
        rw [hi, Nat.sub_self] at hib
        simpa using hib.symm
      rw [hb] at hf
      obtain ⟨hfn, _⟩ := hmoved_sub f hf
      have haddf : (setTrues st.supportAdded moved).getD f false = true :=
        getD_setTrues_mem hf (hlenA ▸ hfn)
      refine ⟨hfn, by rw [hadd]; exact haddf, ?_⟩
      rw [hrk, getD_incrWhereFalse (hmaskLen ▸ hfn) hmrLen, haddf, if_pos rfl]
      rw [hnever f hfn (hmoved_addFalse f hf), hi]
  · intro f hfn hfalse
    rw [hadd] at hfalse
    have hfm : f ∉ moved := by
      intro hmem
      rw [getD_setTrues_mem hmem (hlenA ▸ hfn)] at hfalse
      exact absurd hfalse (by simp)
    rw [getD_setTrues_not_mem hfm] at hfalse
    rw [hrk, getD_incrWhereFalse (hmaskLen ▸ hfn) hmrLen,
      getD_setTrues_not_mem hfm, hfalse, if_neg (by simp)]
    rw [hnever f hfn hfalse, hbt, List.length_append]
    simp
  · intro f hfn htrue
    rw [hadd] at htrue
    by_cases hfm : f ∈ moved
    · refine ⟨st.batches.length, moved, ?_, hfm⟩
      rw [hbt, List.getElem?_append, if_neg (lt_irrefl _), Nat.sub_self]
      rfl
    · rw [getD_setTrues_not_mem hfm] at htrue
      obtain ⟨i, b, hib, hfb⟩ := hsome f hfn htrue
      obtain ⟨hilt, _⟩ := List.getElem?_eq_some.mp hib
      refine ⟨i, b, ?_, hfb⟩
      rw [hbt, List.getElem?_append, if_pos hilt]
      exact hib

theorem rfaLoop_batchInv {model : List Nat → Option Coefs}
    {hook : Option (List Nat → ℚ)} {step target : Nat} {n : Nat} :
    ∀ (fuel : Nat) (st out : RFAState), BatchInv n st →
      rfaLoop model hook step target fuel st = .ok out → BatchInv n out := by
  intro fuel
  induction fuel with
  | zero => intro st out _ h; exact Except.noConfusion h
  | succ k ih =>
      intro st out hInv h
      rw [rfaLoop] at h
      split at h
      · rcases hs : rfaStep model hook step target st with e | st'
        · rw [hs] at h; exact Except.noConfusion h
        · rw [hs] at h
          exact ih st' out (rfaStep_batchInv hInv hs) h
      · injection h with h'
        rw [← h']; exact hInv

theorem rfaFit_ok_elim {n : Nat} {model : List Nat → Option Coefs}
    {tgt : Option Nat} {q : ℚ} {hook : Option (List Nat → ℚ)} {r : RFAResult}
    (h : rfaFit n model tgt q hook = .ok r) :
    ∃ st : RFAState,
      rfaLoop model hook (resolveStep q n).toNat (tgt.getD (n / 2)) (n + 1)
          (initState n) = .ok st ∧
      r.support = st.supportAdded ∧ r.nFeatures = countTrue st.supportAdded ∧
      r.ranking = st.rankingAdded ∧ r.batches = st.batches := by
  simp only [rfaFit] at h
  split at h
  · exact Except.noConfusion h
  · split at h
    · exact Except.noConfusion h
    · rename_i st hst
      refine ⟨st, hst, ?_⟩
      injection h with h'
      rw [← h']
      exact ⟨rfl, rfl, rfl, rfl⟩

theorem rfaFit_batch_rank {n : Nat} {model : List Nat → Option Coefs}
    {tgt : Option Nat} {q : ℚ} {hook : Option (List Nat → ℚ)} {r : RFAResult}
    (h : rfaFit n model tgt q hook = .ok r) :
    r.support.length = n ∧ r.ranking.length = n ∧
    (∀ (i : Nat) (b : List Nat), r.batches[i]? = some b → ∀ f ∈ b,
        f < n ∧ r.support.getD f false = true ∧ r.ranking.getD f 0 = i + 1) ∧
    (∀ f, f < n → r.support.getD f false = false →
        r.ranking.getD f 0 = r.batches.length + 1) ∧
    (∀ f, f < n → r.support.getD f false = true →
        ∃ (i : Nat) (b : List Nat), r.batches[i]? = some b ∧ f ∈ b) := by
  obtain ⟨st, hloop, hs, _, hr, hb⟩ := rfaFit_ok_elim h
  obtain ⟨l1, l2, _, c4, c5, c6⟩ :=
    rfaLoop_batchInv _ _ _ (batchInv_init n) hloop
  rw [hs, hr, hb]
  exact ⟨l1, l2, c4, c5, c6⟩

/-! ### Claim C1 -/

/-- C1: the claim states that a terminating run exposes exactly
`target_count` selected features (`floor(n/2)` if unspecified), as the class
docstring also asserts.  The code instead loops until the candidate mask
shrinks to `target_count` and then exposes the complementary added mask, so
the selected count is `n_features - target_count`.  At `n_features = 4`,
`target_count = 3`, `step = 1` the run terminates with exactly one selected
feature, not three. -/
theorem c1_code_evaluation :
    rfaFit 4 linModel (some 3) 1 none =
      .ok { support := [false, false, false, true], nFeatures := 1,
            ranking := [2, 2, 2, 1], scores := [], batches := [[3]] } ∧
    (1 : Nat) ≠ 3 := ⟨by with_unfolding_all rfl, by decide⟩

/-! ### Claim C2 -/

/-- C2 counterexample: on a 3-feature run driven to candidate count 1 with a
model whose importance grows with column index, the batches are `[[2], [1]]`
(feature 2 moved first, feature 1 moved last) and the exposed ranking is
`[3, 2, 1]`: the feature of the LAST batch (feature 1) has rank 2, not the
rank 1 the claim assigns to the batch added last; rank 1 belongs to the
first-added batch.  The code never inverts `ranking_added_` (line 247). -/
theorem c2_counterexample :
    rfaFit 3 linModel (some 1) 1 none =
      .ok { support := [false, true, true], nFeatures := 2,
            ranking := [3, 2, 1], scores := [], batches := [[2], [1]] } ∧
    (2 : Nat) ≠ 1 := ⟨by with_unfolding_all rfl, by decide⟩

/-- C2 amended: the exposed rank of a feature is a function of the batch it
was moved in alone - features of one batch share one rank, the batch moved
FIRST (not last) receives rank 1, and later-moved batches receive strictly
larger ranks in move order. -/
theorem c2_amended_batch_rank {n : Nat} {model : List Nat → Option Coefs}
    {tgt : Option Nat} {q : ℚ} {hook : Option (List Nat → ℚ)} {r : RFAResult}
    (h : rfaFit n model tgt q hook = .ok r) :
    (∀ (i : Nat) (b : List Nat), r.batches[i]? = some b → ∀ f ∈ b, ∀ g ∈ b,
        r.ranking.getD f 0 = r.ranking.getD g 0) ∧
    (∀ b : List Nat, r.batches[0]? = some b → ∀ f ∈ b,
        r.ranking.getD f 0 = 1) ∧
    (∀ (i j : Nat) (b c : List Nat), r.batches[i]? = some b →
        r.batches[j]? = some c → i < j → ∀ f ∈ b, ∀ g ∈ c,
        r.ranking.getD f 0 < r.ranking.getD g 0) := by
  obtain ⟨_, _, c4, _, _⟩ := rfaFit_batch_rank h
  refine ⟨?_, ?_, ?_⟩
  · intro i b hib f hf g hg
    rw [(c4 i b hib f hf).2.2, (c4 i b hib g hg).2.2]
  · intro b h0 f hf
    rw [(c4 0 b h0 f hf).2.2]
  · intro i j b c hib hjc hij f hf g hg
    rw [(c4 i b hib f hf).2.2, (c4 j c hjc g hg).2.2]
    omega

theorem c2_amended_batch_rank_witness :
    rfaFit 3 linModel (some 1) 1 none =
      .ok { support := [false, true, true], nFeatures := 2,
            ranking := [3, 2, 1], scores := [], batches := [[2], [1]] } ∧
    ([3, 2, 1] : List Nat).getD 2 0 = 1 ∧
    ([3, 2, 1] : List Nat).getD 2 0 < ([3, 2, 1] : List Nat).getD 1 0 := by
  have hrun : rfaFit 3 linModel (some 1) 1 none =
      .ok { support := [false, true, true], nFeatures := 2,
            ranking := [3, 2, 1], scores := [], batches := [[2], [1]] } := by
    with_unfolding_all rfl
  have hc := c2_amended_batch_rank hrun
  refine ⟨hrun, ?_, ?_⟩
  · exact hc.2.1 [2] rfl 2 (by decide)
  · exact hc.2.2 0 1 [2] [1] rfl rfl (by decide) 2 (by decide) 1 (by decide)

/-! ### Claim C3 -/

/-- C3: the claim (and the `RFACV` docstring, line 379) give the trajectory
length as `ceil((n_features - 1) / step) + 1`.  The code skips the score of
the empty added set in the first loop iteration (line 183), so a run driven
to candidate count 1 records `ceil((n_features - 1) / step)` scores: at
`n_features = 3`, `step = 1` the trajectory has length 2, not 3. -/
theorem c3_code_evaluation :
    (rfaFit 3 linModel (some 1) 1 (some sizeHook)).map
        (fun r => r.scores) = .ok [1, 2] ∧
    (2 : Nat) ≠ 3 := ⟨by with_unfolding_all rfl, by decide⟩

/-! ### Claim C6 -/

/-- C6 counterexample: with `n_features_to_select = n_features = 2` the
`while` loop body never executes, so a model exposing neither `coef_` nor
`feature_importances_` raises no error at all - the fit returns normally
with an empty selection, where the claim demands a configuration error on
every run. -/
theorem c6_counterexample :
    rfaFit 2 noSignalModel (some 2) 1 none =
      .ok { support := [false, false], nFeatures := 0, ranking := [1, 1],
            scores := [], batches := [] } := by rfl

/-! ### Claim C8 -/

/-- The state after one iteration of `rfaStep linModel none 1 1` from
`initState 2`, used as a concrete iteration boundary. -/
def stepWitnessState : RFAState :=
  { support := [true, false], supportAdded := [false, true],
    ranking := [1, 2], rankingAdded := [2, 1], scores := [], batches := [[1]] }

/-- C8: at every iteration boundary of a run the candidate mask and the
added mask are complementary, so their populations sum to `n_features`, and
the added population never decreases across an iteration: both facts hold of
the initial state and are preserved by every successful loop iteration. -/
theorem c8_mask_invariant (n : Nat) (model : List Nat → Option Coefs)
    (hook : Option (List Nat → ℚ)) (step target : Nat) :
    ((initState n).supportAdded.length = n ∧
      (initState n).support = (initState n).supportAdded.map not ∧
      countTrue (initState n).support + countTrue (initState n).supportAdded = n) ∧
    ∀ st st' : RFAState, st.supportAdded.length = n →
      st.support = st.supportAdded.map not →
      rfaStep model hook step target st = .ok st' →
      st'.supportAdded.length = n ∧
      st'.support = st'.supportAdded.map not ∧
      countTrue st'.support + countTrue st'.supportAdded = n ∧
      countTrue st.supportAdded ≤ countTrue st'.supportAdded := by
  constructor
  · refine ⟨List.length_replicate _ _, by simp [initState, List.map_replicate], ?_⟩
    simp only [initState]
    rw [countTrue_replicate_true, countTrue_replicate_false]
    omega
  · intro st st' hlen hcomp h
    obtain ⟨coefs, moved, _, _, hsup, hadd, _, _⟩ := rfaStep_ok_elim h
    have hlen' : st'.supportAdded.length = n := by
      rw [hadd, length_setTrues, hlen]
    have hcomp' : st'.support = st'.supportAdded.map not := by
      rw [hsup, hadd, hcomp, setFalses_map_not]
    refine ⟨hlen', hcomp', ?_, ?_⟩
    · rw [hcomp', countTrue_map_not_add, hlen']
    · rw [hadd]
      exact countTrue_le_setTrues _ _

theorem c8_mask_invariant_witness :
    stepWitnessState.supportAdded.length = 2 ∧
    stepWitnessState.support = stepWitnessState.supportAdded.map not ∧
    countTrue stepWitnessState.support + countTrue stepWitnessState.supportAdded = 2 ∧
    countTrue (initState 2).supportAdded ≤ countTrue stepWitnessState.supportAdded :=
  (c8_mask_invariant 2 linModel none 1 1).2 (initState 2) stepWitnessState
    (by decide) (by decide) (by with_unfolding_all rfl)

/-! ### Claim C10 -/

/-- C10: after a terminating run, a feature moved in the batch of iteration
`i` (1-based; 0-based index `i` in the batch trace gives rank `i + 1`) has
exposed rank exactly that iteration number; every feature never moved into
the added set shares the single rank `batches.length + 1`; and every
unselected feature ranks strictly worse (larger) than every selected one. -/
theorem c10_batch_ranks {n : Nat} {model : List Nat → Option Coefs}
    {tgt : Option Nat} {q : ℚ} {hook : Option (List Nat → ℚ)} {r : RFAResult}
    (h : rfaFit n model tgt q hook = .ok r) :
    (∀ (i : Nat) (b : List Nat), r.batches[i]? = some b → ∀ f ∈ b,
        r.ranking.getD f 0 = i + 1) ∧
    (∀ f, f < n → r.support.getD f false = false →
        r.ranking.getD f 0 = r.batches.length + 1) ∧
    (∀ f g, f < n → g < n → r.support.getD f false = false →
        r.support.getD g false = true →
        r.ranking.getD g 0 < r.ranking.getD f 0) := by
  obtain ⟨_, _, c4, c5, c6⟩ := rfaFit_batch_rank h
  refine ⟨fun i b hib f hf => (c4 i b hib f hf).2.2, c5, ?_⟩
  intro f g hfn hgn hfu hgs
  obtain ⟨i, b, hib, hgb⟩ := c6 g hgn hgs
  obtain ⟨hilt, _⟩ := List.getElem?_eq_some.mp hib
  rw [c5 f hfn hfu, (c4 i b hib g hgb).2.2]
  omega

theorem c10_batch_ranks_witness :
    ([3, 2, 1] : List Nat).getD 2 0 = 0 + 1 ∧
    ([3, 2, 1] : List Nat).getD 0 0 = ([[2], [1]] : List (List Nat)).length + 1 ∧
    ([3, 2, 1] : List Nat).getD 1 0 < ([3, 2, 1] : List Nat).getD 0 0 := by
  have hrun : rfaFit 3 linModel (some 1) 1 none =
      .ok { support := [false, true, true], nFeatures := 2,
            ranking := [3, 2, 1], scores := [], batches := [[2], [1]] } := by
    with_unfolding_all rfl
  have hc := c10_batch_ranks hrun
  refine ⟨?_, ?_, ?_⟩
  · exact hc.1 0 [2] rfl 2 (by decide)
  · exact hc.2.1 0 (by decide) (by decide)
  · exact hc.2.2 0 1 (by decide) (by decide) (by decide) (by decide)

/-! ### Claims C5 and C9: properties of the ranking of one importance vector -/

theorem keysOne_length (vs : List Val) :
    ((importanceOf (Coefs.one vs)).map Val.neg).length = vs.length := by
  simp [importanceOf]

theorem keysOne_getD {vs : List Val} {i : Nat} (h : i < vs.length) :
    ((importanceOf (Coefs.one vs)).map Val.neg).getD i Val.nan =
      Val.neg (safeSqr (vs.getD i Val.nan)) := by
  have h1 : i < ((importanceOf (Coefs.one vs)).map Val.neg).length := by
    rw [keysOne_length]; exact h
  have h2 : i < (vs.map safeSqr).length := by rw [List.length_map]; exact h
  rw [List.getD_eq_getElem _ _ h1, List.getD_eq_getElem _ _ h]
  simp [importanceOf, List.getElem_map]

theorem valLt_nan_left (x : Val) : valLt Val.nan x = false := by
  cases x <;> simp [valLt, valLevel]

theorem safeSqr_ne_nan {x : Val} (h : x ≠ Val.nan) : safeSqr x ≠ Val.nan := by
  cases x <;> simp [safeSqr] at *

theorem neg_ne_nan {x : Val} (h : x ≠ Val.nan) : Val.neg x ≠ Val.nan := by
  cases x <;> simp [Val.neg] at *

/-- C5 counterexample: the signal `[NaN, 5, 0]` is ranked as-is - in
`np.argsort(-safe_sqr(coefs))` NaN orders last, giving ranks `[1, 2, 0]` -
whereas the claim's zero-substitution would rank it `[1, 0, 2]`.  Non-finite
entries are therefore not replaced with 0 before ranking (the `nan_to_num`
branch fires only on a `ValueError`, which numeric NaN/inf never causes). -/
theorem c5_counterexample :
    getRanks (Coefs.one [Val.nan, Val.fin 5, Val.fin 0]) = [1, 2, 0] ∧
    getRanks (zeroSubstCoefs (Coefs.one [Val.nan, Val.fin 5, Val.fin 0])) =
      [1, 0, 2] ∧
    getRanks (Coefs.one [Val.nan, Val.fin 5, Val.fin 0]) ≠
      getRanks (zeroSubstCoefs (Coefs.one [Val.nan, Val.fin 5, Val.fin 0])) := by
  have h1 : getRanks (Coefs.one [Val.nan, Val.fin 5, Val.fin 0]) = [1, 2, 0] := by
    with_unfolding_all rfl
  have h2 : getRanks (zeroSubstCoefs (Coefs.one [Val.nan, Val.fin 5, Val.fin 0])) =
      [1, 0, 2] := by
    with_unfolding_all rfl
  exact ⟨h1, h2, by rw [h1, h2]; decide⟩

/-- C5 amended: a non-finite importance never surfaces an error, but it is
not zero-substituted either: the ranking orders a NaN importance after every
non-NaN importance, i.e. a NaN-importance feature is treated as least
important rather than as a zero-importance feature. -/
theorem c5_amended_nan_ranked_last (vs : List Val) (i j : Nat)
    (hi : i < vs.length) (hj : j < vs.length)
    (hni : vs.getD i Val.nan = Val.nan) (hnj : vs.getD j Val.nan ≠ Val.nan) :
    (getRanks (Coefs.one vs)).indexOf j < (getRanks (Coefs.one vs)).indexOf i := by
  unfold getRanks
  have hki : ((importanceOf (Coefs.one vs)).map Val.neg).getD i Val.nan = Val.nan := by
    rw [keysOne_getD hi, hni]
    rfl
  have hkj : ((importanceOf (Coefs.one vs)).map Val.neg).getD j Val.nan ≠ Val.nan := by
    rw [keysOne_getD hj]
    exact neg_ne_nan (safeSqr_ne_nan hnj)
  have hne : j ≠ i := by
    intro e
    rw [e] at hkj
    exact hkj hki
  apply argsortAsc_indexOf_lt (by rw [keysOne_length]; exact hj)
    (by rw [keysOne_length]; exact hi) hne
  intro hrel
  rcases hrel with hlt | ⟨heq, _⟩
  · rw [hki, valLt_nan_left] at hlt
    exact Bool.false_ne_true hlt
  · exact hkj (heq.symm.trans hki)

theorem c5_amended_nan_ranked_last_witness :
    (getRanks (Coefs.one [Val.nan, Val.fin 5, Val.fin 0])).indexOf 1 <
      (getRanks (Coefs.one [Val.nan, Val.fin 5, Val.fin 0])).indexOf 0 :=
  c5_amended_nan_ranked_last [Val.nan, Val.fin 5, Val.fin 0] 0 1
    (by decide) (by decide) (by decide) (by decide)

/-! ### Claim C6 (amended) -/

/-- C6 amended: the non-positive-step configuration error is raised before
the addition loop on every run, and RFACV raises it itself before touching
any fold; the missing-signal configuration error is raised during the FIRST
iteration of the loop, before any feature is moved, on every run whose loop
body executes at all (resolved target below `n_features`) - if the loop body
never runs, no signal check takes place (see the counterexample). -/
theorem c6_amended_config_errors (n : Nat) (model : List Nat → Option Coefs)
    (tgt : Option Nat) (q : ℚ) (hook : Option (List Nat → ℚ)) :
    (resolveStep q n ≤ 0 → rfaFit n model tgt q hook = .error .stepNonPositive) ∧
    (0 < resolveStep q n → tgt.getD (n / 2) < n → model (List.range n) = none →
        rfaFit n model tgt q hook = .error .noCoefSignal) ∧
    (∀ (folds : List Fold) (mf : List Nat → Option Coefs),
        resolveStep q n ≤ 0 → rfacvFit n mf q folds = .error .stepNonPositive) := by
  refine ⟨?_, ?_, ?_⟩
  · intro h
    simp only [rfaFit]
    rw [if_pos h]
  · intro hpos htgt hnone
    simp only [rfaFit]
    rw [if_neg (not_le.mpr hpos)]
    have hcond : countTrue (initState n).support > tgt.getD (n / 2) := by
      simp only [initState]
      rw [countTrue_replicate_true]
      exact htgt
    have hstep : rfaStep model hook (resolveStep q n).toNat (tgt.getD (n / 2))
        (initState n) = .error .noCoefSignal := by
      simp only [rfaStep]
      have hti : trueIndices (initState n).support = List.range n := by
        simp only [initState]
        exact trueIndices_replicate_true n
      rw [hti, hnone]
    have hloop : rfaLoop model hook (resolveStep q n).toNat (tgt.getD (n / 2))
        (n + 1) (initState n) = .error .noCoefSignal := by
      rw [rfaLoop, if_pos hcond, hstep]
    rw [hloop]
  · intro folds mf h
    simp only [rfacvFit]
    rw [if_pos h]

theorem c6_amended_config_errors_witness :
    rfaFit 2 linModel (some 1) (-1) none = .error .stepNonPositive ∧
    rfaFit 2 noSignalModel (some 1) 1 none = .error .noCoefSignal ∧
    rfacvFit 2 linModel (-1) [] = .error .stepNonPositive := by
  have h1 : resolveStep (-1) 2 = (-1 : Int) := by with_unfolding_all rfl
  have h2 : resolveStep 1 2 = (1 : Int) := by with_unfolding_all rfl
  refine ⟨(c6_amended_config_errors 2 linModel (some 1) (-1) none).1 ?_,
    (c6_amended_config_errors 2 noSignalModel (some 1) 1 none).2.1 ?_
      (by decide) rfl,
    (c6_amended_config_errors 2 linModel none (-1) none).2.2 [] linModel ?_⟩
  · rw [h1]; decide
  · rw [h2]; decide
  · rw [h1]; decide

/-! ### Claims C4 and C7: the cross-validated selector -/

/-- The running first-max fold of `argmaxQ` restricted to the first `k`
positions; `argmaxQ l = argmaxAux l l.length` by definition. -/
def argmaxAux (l : List ℚ) (k : Nat) : Nat :=
  (List.range k).foldl
    (fun best i => if l.getD best 0 < l.getD i 0 then i else best) 0

theorem argmaxAux_succ (l : List ℚ) (k : Nat) :
    argmaxAux l (k + 1) =
      if l.getD (argmaxAux l k) 0 < l.getD k 0 then k else argmaxAux l k := by
  unfold argmaxAux
  rw [List.range_succ, List.foldl_append]
  rfl

theorem argmaxAux_spec (l : List ℚ) :
    ∀ k, 0 < k →
      argmaxAux l k < k ∧
      (∀ j, j < k → l.getD j 0 ≤ l.getD (argmaxAux l k) 0) ∧
      (∀ j, j < argmaxAux l k → l.getD j 0 < l.getD (argmaxAux l k) 0) := by
  intro k
  induction k with
  | zero => intro h; exact absurd h (lt_irrefl 0)
  | succ m ih =>
      intro _
      by_cases hm : 0 < m
      · obtain ⟨h1, h2, h3⟩ := ih hm
        rw [argmaxAux_succ]
        split
        · rename_i hlt
          refine ⟨Nat.lt_succ_self m, ?_, ?_⟩
          · intro j hj
            rcases Nat.lt_succ_iff_lt_or_eq.mp hj with hj' | hj'
            · exact le_of_lt (lt_of_le_of_lt (h2 j hj') hlt)
            · rw [hj']
          · intro j hj
            exact lt_of_le_of_lt (h2 j hj) hlt
        · rename_i hnlt
          refine ⟨Nat.lt_succ_of_lt h1, ?_, h3⟩
          intro j hj
          rcases Nat.lt_succ_iff_lt_or_eq.mp hj with hj' | hj'
          · exact h2 j hj'
          · rw [hj']
            exact le_of_not_lt hnlt
      · have hm0 : m = 0 := Nat.eq_zero_of_not_pos hm
        subst hm0
        have h0 : argmaxAux l 1 = 0 := by
          rw [argmaxAux_succ]
          split <;> rfl
        rw [h0]
        refine ⟨Nat.zero_lt_one, ?_, ?_⟩
        · intro j hj
          have : j = 0 := by omega
          rw [this]
        · intro j hj
          exact absurd hj (Nat.not_lt_zero j)

theorem argmaxQ_isFirstMax {l : List ℚ} (h : l ≠ []) :
    IsFirstMax l (argmaxQ l) := by
  have hlen : 0 < l.length := List.length_pos.mpr h
  exact argmaxAux_spec l l.length hlen

theorem foldl_zipAdd_length (rows : List (List ℚ)) :
    ∀ (acc : List ℚ) (L : Nat), acc.length = L → (∀ t ∈ rows, t.length = L) →
      (rows.foldl (fun a row => List.zipWith (· + ·) a row) acc).length = L := by
  induction rows with
  | nil => intro acc L h _; exact h
  | cons r rs ih =>
      intro acc L hacc hall
      rw [List.foldl_cons]
      refine ih _ _ ?_ (fun t ht => hall t (List.mem_cons_of_mem _ ht))
      rw [List.length_zipWith, hacc, hall r (List.mem_cons_self _ _), min_self]

theorem foldl_zipAdd_getD (rows : List (List ℚ)) :
    ∀ (acc : List ℚ) (idx L : Nat), acc.length = L →
      (∀ t ∈ rows, t.length = L) → idx < L →
      (rows.foldl (fun a row => List.zipWith (· + ·) a row) acc).getD idx 0 =
        acc.getD idx 0 + (rows.map (fun t => t.getD idx 0)).sum := by
  induction rows with
  | nil => intro acc idx L _ _ _; simp
  | cons r rs ih =>
      intro acc idx L hacc hall hidx
      rw [List.foldl_cons]
      have hr : r.length = L := hall r (List.mem_cons_self _ _)
      have hzl : (List.zipWith (· + ·) acc r).length = L := by
        rw [List.length_zipWith, hacc, hr, min_self]
      rw [ih (List.zipWith (· + ·) acc r) idx L hzl
        (fun t ht => hall t (List.mem_cons_of_mem _ ht)) hidx]
      have hz : (List.zipWith (· + ·) acc r).getD idx 0 =
          acc.getD idx 0 + r.getD idx 0 := by
        rw [List.getD_eq_getElem _ _ (by rw [hzl]; exact hidx),
          List.getD_eq_getElem _ _ (by rw [hacc]; exact hidx),
          List.getD_eq_getElem _ _ (by rw [hr]; exact hidx)]
        exact List.getElem_zipWith
      rw [hz, List.map_cons, List.sum_cons]
      ring

theorem sumAxis0Q_length {rows : List (List ℚ)} {L : Nat} (hne : rows ≠ [])
    (hall : ∀ t ∈ rows, t.length = L) : (sumAxis0Q rows).length = L := by
  cases rows with
  | nil => exact absurd rfl hne
  | cons r rs =>
      exact foldl_zipAdd_length rs r L (hall r (List.mem_cons_self _ _))
        (fun t ht => hall t (List.mem_cons_of_mem _ ht))

theorem sumAxis0Q_getD {rows : List (List ℚ)} {L idx : Nat} (hne : rows ≠ [])
    (hall : ∀ t ∈ rows, t.length = L) (hidx : idx < L) :
    (sumAxis0Q rows).getD idx 0 = (rows.map (fun t => t.getD idx 0)).sum := by
  cases rows with
  | nil => exact absurd rfl hne
  | cons r rs =>
      have := foldl_zipAdd_getD rs r idx L (hall r (List.mem_cons_self _ _))
        (fun t ht => hall t (List.mem_cons_of_mem _ ht)) hidx
      rw [sumAxis0Q, this, List.map_cons, List.sum_cons]

theorem rfacvFit_ok_elim {n : Nat} {mf : List Nat → Option Coefs} {q : ℚ}
    {folds : List Fold} {res : RFACVResult}
    (h : rfacvFit n mf q folds = .ok res) :
    ∃ (trajs : List (List ℚ)) (fr : RFAResult),
      foldTrajectories n q folds = .ok trajs ∧
      rfaFit n mf
          (some ((max ((n : Int) - (argmaxQ (sumAxis0Q trajs) : Int) *
              resolveStep q n) 1).toNat)) q none = .ok fr ∧
      res.support = fr.support ∧ res.ranking = fr.ranking ∧
      res.nFeatures = fr.nFeatures ∧
      res.nFeaturesToSelect =
        (max ((n : Int) - (argmaxQ (sumAxis0Q trajs) : Int) *
            resolveStep q n) 1).toNat ∧
      res.gridScores =
        (sumAxis0Q trajs).reverse.map (fun s => s / (folds.length : ℚ)) := by
  simp only [rfacvFit] at h
  split at h
  · exact Except.noConfusion h
  · split at h
    · exact Except.noConfusion h
    · rename_i trajs htr
      split at h
      · exact Except.noConfusion h
      · rename_i fr hfr
        refine ⟨trajs, fr, htr, hfr, ?_⟩
        injection h with h'
        rw [← h']
        exact ⟨rfl, rfl, rfl, rfl, rfl⟩

/-- C4: RFACV sums the per-fold score trajectories elementwise, takes the
first-occurrence argmax of the aggregate, sets the chosen subset-size
parameter to `max(n_features - best_index * step, 1)`, and re-runs the
addition engine once on the whole dataset with that parameter and no score
hook; the exposed support mask and ranking are exactly that final run's. -/
theorem c4_rfacv_selection {n : Nat} {mf : List Nat → Option Coefs} {q : ℚ}
    {folds : List Fold} {trajs : List (List ℚ)} {res : RFACVResult} {L : Nat}
    (htr : foldTrajectories n q folds = .ok trajs)
    (hrun : rfacvFit n mf q folds = .ok res)
    (hne : trajs ≠ []) (hL : ∀ t ∈ trajs, t.length = L) (hLpos : 0 < L) :
    (∀ idx, idx < L → (sumAxis0Q trajs).getD idx 0 =
        (trajs.map (fun t => t.getD idx 0)).sum) ∧
    IsFirstMax (sumAxis0Q trajs) (argmaxQ (sumAxis0Q trajs)) ∧
    res.nFeaturesToSelect =
      (max ((n : Int) - (argmaxQ (sumAxis0Q trajs) : Int) * resolveStep q n)
        1).toNat ∧
    (rfaFit n mf (some res.nFeaturesToSelect) q none).map (fun r => r.support) =
      .ok res.support ∧
    (rfaFit n mf (some res.nFeaturesToSelect) q none).map (fun r => r.ranking) =
      .ok res.ranking := by
  obtain ⟨trajs', fr, htr', hfr, hs, hrk, _, hsel, _⟩ := rfacvFit_ok_elim hrun
  rw [htr] at htr'
  injection htr' with he
  subst he
  refine ⟨?_, ?_, hsel, ?_, ?_⟩
  · intro idx hidx
    exact sumAxis0Q_getD hne hL hidx
  · apply argmaxQ_isFirstMax
    intro hempty
    have hlen := sumAxis0Q_length hne hL
    rw [hempty] at hlen
    simp at hlen
    omega
  · rw [hsel, hfr, hs]
    rfl
  · rw [hsel, hfr, hrk]
    rfl

theorem c4_rfacv_selection_witness :
    (sumAxis0Q [[1]]).getD 0 0 =
      (([[1]] : List (List ℚ)).map (fun t => t.getD 0 0)).sum ∧
    IsFirstMax (sumAxis0Q [[1]]) (argmaxQ (sumAxis0Q [[1]])) ∧
    (2 : Nat) =
      (max ((2 : Int) - (argmaxQ (sumAxis0Q [[1]]) : Int) * resolveStep 1 2)
        1).toNat ∧
    (rfaFit 2 linModel (some 2) 1 none).map (fun r => r.support) =
      .ok [false, false] := by
  have htr : foldTrajectories 2 1 [⟨linModel, sizeHook⟩] = .ok [[1]] := by
    with_unfolding_all rfl
  have hrun : rfacvFit 2 linModel 1 [⟨linModel, sizeHook⟩] =
      .ok { support := [false, false], nFeatures := 0, ranking := [1, 1],
            gridScores := [1], nFeaturesToSelect := 2 } := by
    with_unfolding_all rfl
  have hc := c4_rfacv_selection htr hrun (by decide)
    (by intro t ht; simp at ht; rw [ht]) (by decide)
  exact ⟨hc.1 0 (by decide), hc.2.1, hc.2.2.1, hc.2.2.2.1⟩

/-- C7: the exposed `grid_scores_` is the elementwise sum of the per-fold
trajectories divided by the number of folds, in the reverse of the order the
engine recorded them: exposed entry `idx` is the fold-sum at engine position
`L - 1 - idx` over the fold count, so index 0 carries the score of the
largest recorded added set and the last index that of the smallest. -/
theorem c7_grid_scores {n : Nat} {mf : List Nat → Option Coefs} {q : ℚ}
    {folds : List Fold} {trajs : List (List ℚ)} {res : RFACVResult} {L : Nat}
    (htr : foldTrajectories n q folds = .ok trajs)
    (hrun : rfacvFit n mf q folds = .ok res)
    (hne : trajs ≠ []) (hL : ∀ t ∈ trajs, t.length = L) :
    res.gridScores.length = L ∧
    ∀ idx, idx < L → res.gridScores.getD idx 0 =
      (trajs.map (fun t => t.getD (L - 1 - idx) 0)).sum / (folds.length : ℚ) := by
  obtain ⟨trajs', _, htr', _, _, _, _, _, hgrid⟩ := rfacvFit_ok_elim hrun
  rw [htr] at htr'
  injection htr' with he
  subst he
  have hsl : (sumAxis0Q trajs).length = L := sumAxis0Q_length hne hL
  constructor
  · rw [hgrid, List.length_map, List.length_reverse, hsl]
  · intro idx hidx
    have h1 : idx <
        ((sumAxis0Q trajs).reverse.map (fun s => s / (folds.length : ℚ))).length := by
      rw [List.length_map, List.length_reverse, hsl]
      exact hidx
    have h2 : idx < (sumAxis0Q trajs).reverse.length := by
      rw [List.length_reverse, hsl]
      exact hidx
    rw [hgrid, List.getD_eq_getElem _ _ h1, List.getElem_map,
      List.getElem_reverse]
    congr 1
    have h3 : L - 1 - idx < L := by omega
    have h4 : (sumAxis0Q trajs).length - 1 - idx < (sumAxis0Q trajs).length := by
      rw [hsl]
      exact h3
    rw [← List.getD_eq_getElem (sumAxis0Q trajs) 0 h4, hsl]
    exact sumAxis0Q_getD hne hL h3

theorem c7_grid_scores_witness :
    (RFACVResult.gridScores
        { support := [false, false], nFeatures := 0, ranking := [1, 1],
          gridScores := [1], nFeaturesToSelect := 2 }).length = 1 ∧
    (RFACVResult.gridScores
        { support := [false, false], nFeatures := 0, ranking := [1, 1],
          gridScores := [1], nFeaturesToSelect := 2 }).getD 0 0 =
      (([[1]] : List (List ℚ)).map (fun t => t.getD (1 - 1 - 0) 0)).sum /
        ((([⟨linModel, sizeHook⟩] : List Fold)).length : ℚ) := by
  have htr : foldTrajectories 2 1 [⟨linModel, sizeHook⟩] = .ok [[1]] := by
    with_unfolding_all rfl
  have hrun : rfacvFit 2 linModel 1 [⟨linModel, sizeHook⟩] =
      .ok { support := [false, false], nFeatures := 0, ranking := [1, 1],
            gridScores := [1], nFeaturesToSelect := 2 } := by
    with_unfolding_all rfl
  have hc := c7_grid_scores htr hrun (by decide)
    (by intro t ht; simp at ht; rw [ht])
  exact ⟨hc.1, hc.2 0 (by decide)⟩
